import Mathlib

/-!
Verification of the photo-disintegration interaction engine
(src/src/module/PhotoDisintegration.cpp, C++ namespace mpc) against its
natural-language specification.

The C++ code is shallowly embedded as follows.

* Machine doubles are modelled as exact reals `ℝ`.  The one place where the
  IEEE-754 behaviour of doubles is essential — division of a positive value by
  a zero interpolated rate in `setNextInteraction`, which produces `+inf` —
  is modelled with `WithTop ℝ` (`⊤` standing for `+inf`), and the sentinel
  `std::numeric_limits<double>::max()` is the exact real `dblMax` below, which
  is strictly below `⊤` exactly as `DBL_MAX < +inf` holds for doubles.
* External collaborators that the spec declares out of scope (the random
  source, the interpolation primitive `interpolateEquidistant`, the photon
  field scaling function, the nucleus-id codec) enter as parameters: the
  stream of uniform draws is a function `us : ℕ → ℝ`, the interpolation
  primitive is a function argument `interp` applied to the query point and the
  stored curve, the value `photonFieldScaling(photonField, z)` is a real
  parameter `scale`, and a nucleus id is the pair (mass number, charge
  number).
* The rate table `pdTable` (a flat `std::vector` of size 31 * 57 indexed by
  the raw arithmetic `Z * 31 + N`) is modelled as a function from the flat
  integer index to the list of channel records stored at that index.
-/

/-- Largest finite IEEE-754 double, i.e. `std::numeric_limits<double>::max()`
used as the initial sentinel distance (line 91): 2^971 * (2^53 - 1),
which equals 2^1024 - 2^971. -/
def dblMax : ℝ := 2 ^ 971 * (2 ^ 53 - 1)

/-- Modelled from the spec: the helper `digit(channel, d)` used to decode a
disintegration channel code is declared in a header outside src/; the spec
fixes it as base-10 place-value decoding, integer division by the power of ten
`d` followed by modulo 10. -/
def digit (c d : ℕ) : ℕ := c / d % 10

/-- Mass number change of a disintegration channel
(`performInteraction`, line 123):
dA = -nNeutron - nProton - 2 nH2 - 3 nH3 - 3 nHe3 - 4 nHe4. -/
def dA (c : ℕ) : ℤ :=
  -(digit c 100000 : ℤ) - (digit c 10000 : ℤ) - 2 * (digit c 1000 : ℤ)
    - 3 * (digit c 100 : ℤ) - 3 * (digit c 10 : ℤ) - 4 * (digit c 1 : ℤ)

/-- Charge number change of a disintegration channel
(`performInteraction`, line 124):
dZ = -nProton - nH2 - nH3 - 2 nHe3 - 2 nHe4. -/
def dZ (c : ℕ) : ℤ :=
  -(digit c 10000 : ℤ) - (digit c 1000 : ℤ) - (digit c 100 : ℤ)
    - 2 * (digit c 10 : ℤ) - 2 * (digit c 1 : ℤ)

/-- Number of nucleons carried away by the secondaries of a channel, the
numerator of `relativeEnergyLoss` in `energyLossLength` (lines 180-181):
nN + nP + 2 nH2 + 3 nH3 + 3 nHe3 + 4 nHe4. -/
def massLoss (c : ℕ) : ℕ :=
  digit c 100000 + digit c 10000 + 2 * digit c 1000 + 3 * digit c 100
    + 3 * digit c 10 + 4 * digit c 1

/-- The mutable state of the propagating particle (`candidate->current` plus
the active flag) that `performInteraction` reads and writes.  A nucleus id
(`getNucleusId` / `getMassNumberFromNucleusId`, external codec) is modelled
directly by the pair of mass number `A` and charge number `Z`. -/
structure Particle where
  A : ℤ
  Z : ℤ
  energy : ℝ
  active : Bool

/-- One secondary particle: nucleus id (mass number, charge number)
and energy, as passed to `candidate->addSecondary`. -/
abbrev Secondary := (ℤ × ℤ) × ℝ

/-- PhotoDisintegration::performInteraction (lines 110-152): decode the six
digit counts of the stored channel, compute dA and dZ, compute the energy per
nucleon EpA = E / A before mutation, then either update the nucleus identity
to (A + dA, Z + dZ) with energy EpA * (A + dA) when A + dA > 0, or deactivate
the particle; in both cases emit the decoded secondaries, each with energy
EpA times its mass number.  Returns the updated particle and, in emission
order, the list of secondaries. -/
noncomputable def performInteraction (channel : ℕ) (c : Particle) :
    Particle × List Secondary :=
  let nNeutron := digit channel 100000
  let nProton := digit channel 10000
  let nH2 := digit channel 1000
  let nH3 := digit channel 100
  let nHe3 := digit channel 10
  let nHe4 := digit channel 1
  let A := c.A
  let Z := c.Z
  let EpA := c.energy / (A : ℝ)
  let nA := A + dA channel
  let cNew :=
    if 0 < nA then
      { c with A := A + dA channel, Z := Z + dZ channel,
               energy := EpA * ((A + dA channel : ℤ) : ℝ) }
    else
      { c with active := false }
  let secs : List Secondary :=
    List.replicate nNeutron ((1, 0), EpA)
      ++ List.replicate nProton ((1, 1), EpA)
      ++ List.replicate nH2 ((2, 1), EpA * 2)
      ++ List.replicate nH3 ((3, 1), EpA * 3)
      ++ List.replicate nHe3 ((3, 2), EpA * 3)
      ++ List.replicate nHe4 ((4, 2), EpA * 4)
  (cNew, secs)

/-- Sum of the mass numbers of a list of secondaries. -/
def sumA (l : List Secondary) : ℤ := (l.map fun s => s.1.1).sum

/-- Sum of the charge numbers of a list of secondaries. -/
def sumZ (l : List Secondary) : ℤ := (l.map fun s => s.1.2).sum

/-- Sum of the energies of a list of secondaries. -/
noncomputable def sumE (l : List Secondary) : ℝ := (l.map fun s => s.2).sum

/-- One channel record of the rate table: disintegration channel code and the
stored rate curve (`PDMode` in PhotoDisintegration.h). -/
structure PDMode where
  channel : ℕ
  rate : List ℝ

/-- One non-comment, already tokenised record line of a data source, in the
order the fields are read by `init` (lines 51-62): the first integer field
(read into the variable `Z`, charge number), the second integer field (read
into the variable `N`), the channel code, and the whitespace-separated rate
values. -/
structure Line where
  Z : ℤ
  N : ℤ
  channel : ℕ
  rates : List ℝ

/-- Raw flat index of the rate table used at lines 64, 77 and 159:
Z * 31 + N. -/
def pdIndex (Z N : ℤ) : ℤ := Z * 31 + N

/-- Channel record built from one data line: the rates are divided by the
fixed length constant (line 61, `r / Mpc`).  The constant itself lives in a
units header outside src/, so it stays a parameter. -/
noncomputable def lineRecord (Mpc : ℝ) (ln : Line) : PDMode :=
  ⟨ln.channel, ln.rates.map fun r => r / Mpc⟩

/-- Processing of one data line by `init` (line 64): append the record built
from the line to the table entry at the flat index Z * 31 + N, where Z and N
are the first two fields as read. -/
noncomputable def loadLine (Mpc : ℝ) (t : ℤ → List PDMode) (ln : Line) :
    ℤ → List PDMode :=
  fun j => if pdIndex ln.Z ln.N = j then t j ++ [lineRecord Mpc ln] else t j

/-- PhotoDisintegration::init(std::string) (lines 36-68): starting from the
freshly resized table whose 31 * 57 entries are all empty, process the
non-comment lines of the data source in file order. -/
noncomputable def initTable (Mpc : ℝ) (lines : List Line) : ℤ → List PDMode :=
  lines.foldl (loadLine Mpc) fun _ => []

/-- Sampled candidate free path of one channel (line 94): d = -log(u) / rate.
The IEEE-754 behaviour of the C++ doubles at a zero interpolated rate — a
positive numerator divided by +0.0 gives +inf — is modelled by ⊤. -/
noncomputable def sampleDist (u r : ℝ) : WithTop ℝ :=
  if r = 0 then ⊤ else ((-Real.log u / r : ℝ) : WithTop ℝ)

/-- One iteration of the channel race (lines 92-99): skip the channel when its
sample strictly exceeds the current best distance (line 95, `d >
interaction.distance`), otherwise overwrite distance and channel.  The
`Option ℕ` models the C++ channel field, uninitialised (`none`) until the
first overwrite. -/
noncomputable def pdStep (s : ℝ × Option ℕ) (p : ℕ × WithTop ℝ) : ℝ × Option ℕ :=
  if (s.1 : WithTop ℝ) < p.2 then s else (p.2.untop' 0, some p.1)

/-- The complete channel race (lines 91-99), starting from the sentinel
distance `std::numeric_limits<double>::max()` and an uninitialised channel. -/
noncomputable def selectLoop (l : List (ℕ × WithTop ℝ)) : ℝ × Option ℕ :=
  l.foldl pdStep (dblMax, none)

/-- Race list built in the selection loop (lines 92-94): the channels in file
order, each paired with the free path sampled from one fresh uniform draw —
the i-th draw of the stream `us` for the i-th channel — and from its rate
curve interpolated at lg by the external primitive `interp`. -/
noncomputable def sampleList (pdModes : List PDMode) (lg : ℝ)
    (interp : ℝ → List ℝ → ℝ) (us : ℕ → ℝ) : List (ℕ × WithTop ℝ) :=
  pdModes.enum.map fun p => (p.2.channel, sampleDist (us p.1) (interp lg p.2.rate))

/-- PhotoDisintegration::setNextInteraction (lines 70-108): look up the
channel records of the nuclide at the flat index Z * 31 + N with N = A - Z;
return nothing when the list is empty; compute lg = log10(gamma * (1 + z));
return nothing when lg is outside the open interval (6, 14); otherwise run
the channel race and store distance (winning distance divided by the photon
field scaling value, times (1 + z)) and channel.  The stored interaction
state is returned as the `some` value. -/
noncomputable def setNextInteraction (table : ℤ → List PDMode) (A Z : ℤ)
    (gamma z scale : ℝ) (interp : ℝ → List ℝ → ℝ) (us : ℕ → ℝ) :
    Option (ℝ × Option ℕ) :=
  let N := A - Z
  let pdModes := table (pdIndex Z N)
  if pdModes.length = 0 then none
  else
    let lg := Real.logb 10 (gamma * (1 + z))
    if lg ≤ 6 ∨ 14 ≤ lg then none
    else
      let s := selectLoop (sampleList pdModes lg interp us)
      some (s.1 / scale * (1 + z), s.2)

/-- Race list of a `setNextInteraction` call, written out with the table
lookup and the lg coordinate of that call. -/
noncomputable def raceList (table : ℤ → List PDMode) (A Z : ℤ)
    (gamma z : ℝ) (interp : ℝ → List ℝ → ℝ) (us : ℕ → ℝ) :
    List (ℕ × WithTop ℝ) :=
  sampleList (table (pdIndex Z (A - Z))) (Real.logb 10 (gamma * (1 + z))) interp us

/-- PhotoDisintegration::energyLossLength (lines 154-187): derive A, Z and
N = A - Z from the nucleus id and look up the channel records at the flat
index Z * 31 + N; with no records, return the maximum representable length;
compute lg as log10 of E over the rest mass energy (`getNucleusMass(id) *
c_squared`, an external value passed in as `restE`); when lg is outside
(6, 14), return the maximum representable length; otherwise accumulate over
the channels the interpolated rate weighted by the fraction of nucleons
carried away, and return the reciprocal.  No random source is consulted. -/
noncomputable def energyLossLength (table : ℤ → List PDMode) (A Z : ℤ)
    (E restE : ℝ) (interp : ℝ → List ℝ → ℝ) : ℝ :=
  let N := A - Z
  let pdModes := table (pdIndex Z N)
  if pdModes.length = 0 then dblMax
  else
    let lg := Real.logb 10 (E / restE)
    if lg ≤ 6 ∨ 14 ≤ lg then dblMax
    else
      1 / (pdModes.foldl (fun lossRate pd =>
        lossRate + interp lg pd.rate * ((massLoss pd.channel : ℝ) / (A : ℝ))) 0)

/-- C5: for every channel code, decoding the six decimal digit counts and
applying dA and dZ conserves baryon number and charge: the new mass number
A + dA plus the sum of the secondary mass numbers is A, and the new charge
number Z + dZ plus the sum of the secondary charge numbers is Z, with the
secondaries identified as neutron (1,0), proton (1,1), deuteron (2,1),
triton (3,1), He-3 (3,2), He-4 (4,2). -/
theorem performInteraction_conserves_nucleons (channel : ℕ) (c : Particle) :
    (c.A + dA channel) + sumA (performInteraction channel c).2 = c.A ∧
    (c.Z + dZ channel) + sumZ (performInteraction channel c).2 = c.Z := by
  constructor <;>
    · simp only [performInteraction, sumA, sumZ, dA, dZ, List.map_append,
        List.map_replicate, List.sum_append, List.sum_replicate, nsmul_eq_mul]
      omega

/-- C4: whenever the decoded emission counts give a positive new mass number
A + dA, total energy is conserved exactly over the reals: the remnant energy
EpA * (A + dA) plus the sum of all secondary energies equals EpA * A, where
EpA = energy / A is computed before mutation. -/
theorem performInteraction_conserves_energy (channel : ℕ) (c : Particle)
    (h : 0 < c.A + dA channel) :
    (performInteraction channel c).1.energy + sumE (performInteraction channel c).2
      = c.energy / (c.A : ℝ) * (c.A : ℝ) := by
  simp only [performInteraction, sumE, List.map_append, List.map_replicate,
    List.sum_append, List.sum_replicate, smul_eq_mul, if_pos h]
  simp only [dA]
  push_cast
  ring

/-- Witness for C4 at the concrete channel code 100000 (one emitted neutron)
on the nucleus (A, Z) = (4, 2) with unit energy. -/
theorem performInteraction_conserves_energy_witness :
    0 < (4 : ℤ) + dA 100000 ∧
    (performInteraction 100000 ⟨4, 2, 1, true⟩).1.energy
        + sumE (performInteraction 100000 ⟨4, 2, 1, true⟩).2
      = (1 : ℝ) / ((4 : ℤ) : ℝ) * ((4 : ℤ) : ℝ) :=
  ⟨by decide, performInteraction_conserves_energy 100000 ⟨4, 2, 1, true⟩ (by decide)⟩

/-- C9: when the new mass number A + dA is not positive the particle is
deactivated (active flag false) and its nucleus identity and energy are left
untouched (no remnant is emitted); when A + dA is positive the particle stays
as it was except that its identity becomes (A + dA, Z + dZ) and its energy
becomes EpA * (A + dA). -/
theorem performInteraction_exhausted (channel : ℕ) (c : Particle) :
    (performInteraction channel c).1.active
        = (if 0 < c.A + dA channel then c.active else false) ∧
    (performInteraction channel c).1.A
        = (if 0 < c.A + dA channel then c.A + dA channel else c.A) ∧
    (performInteraction channel c).1.Z
        = (if 0 < c.A + dA channel then c.Z + dZ channel else c.Z) ∧
    (performInteraction channel c).1.energy
        = (if 0 < c.A + dA channel then
             c.energy / (c.A : ℝ) * ((c.A + dA channel : ℤ) : ℝ)
           else c.energy) := by
  simp only [performInteraction]
  split_ifs with h <;> simp

/-- Folding `loadLine` over a list of lines appends, at every index, exactly
the records of the lines whose flat index Z * 31 + N is that index, in file
order. -/
theorem foldl_loadLine (Mpc : ℝ) (lines : List Line) (t : ℤ → List PDMode)
    (i : ℤ) :
    lines.foldl (loadLine Mpc) t i
      = t i ++ (lines.filter fun ln => pdIndex ln.Z ln.N = i).map
          (lineRecord Mpc) := by
  induction lines generalizing t with
  | nil => simp
  | cons ln rest ih =>
      rw [List.foldl_cons, ih]
      by_cases h : pdIndex ln.Z ln.N = i
      · simp [loadLine, List.filter_cons, h]
      · simp [loadLine, List.filter_cons, h]

/-- Table entry produced by the loader at an index i: exactly the records of
the lines whose first two fields Z and N satisfy Z * 31 + N = i, in file
order. -/
theorem initTable_apply (Mpc : ℝ) (lines : List Line) (i : ℤ) :
    initTable Mpc lines i
      = (lines.filter fun ln => pdIndex ln.Z ln.N = i).map (lineRecord Mpc) := by
  rw [initTable, foldl_loadLine]
  simp

/-- C1 (amended): the loader keys every record by the pair (first field,
second field) through the flat index Z * 31 + N: the table entry at an index
i holds, in file order, exactly the records (channel code, rates each divided
by the length constant) of the lines whose first two fields Z and N satisfy
Z * 31 + N = i.  No neutron number is derived by subtraction: the second
field is used as read. -/
theorem initTable_keying (Mpc : ℝ) (lines : List Line) (i : ℤ) :
    initTable Mpc lines i
      = (lines.filter fun ln => pdIndex ln.Z ln.N = i).map (lineRecord Mpc) :=
  initTable_apply Mpc lines i

/-- C1 counterexample: for the single record line whose fields are Z = 2,
second field 4, channel 5, and 200 unit rates (with the length constant
instantiated to 1), the claimed key (Z, A - Z) = (2, 2) holds no record at
all; the record is stored at flat index 2 * 31 + 4 instead. -/
theorem initTable_counterexample :
    initTable 1 [⟨2, 4, 5, List.replicate 200 1⟩] (pdIndex 2 (4 - 2)) = [] ∧
    initTable 1 [⟨2, 4, 5, List.replicate 200 1⟩] (pdIndex 2 4)
      = [⟨5, List.replicate 200 1⟩] := by
  constructor
  · rw [initTable_apply]
    simp [pdIndex]
  · rw [initTable_apply]
    rw [List.filter_cons_of_pos (by decide), List.filter_nil]
    simp only [List.map_cons, List.map_nil, lineRecord, List.map_replicate, div_one]

/-- C3: the flat index arithmetic Z * 31 + N is not injective on the
documented key domain Z in [0, 30], N in [0, 56]: the distinct nuclides
(Z, N) = (0, 31) and (1, 0) share the flat index 31, so loading the single
record line for (Z, N) = (1, 0) makes that record appear in the channel list
returned for (0, 31). -/
theorem pdIndex_collision :
    pdIndex 0 31 = pdIndex 1 0 ∧
    ((0 : ℤ), (31 : ℤ)) ≠ ((1 : ℤ), (0 : ℤ)) ∧
    initTable 1 [⟨1, 0, 9, List.replicate 200 1⟩] (pdIndex 0 31)
      = [⟨9, List.replicate 200 1⟩] := by
  refine ⟨by norm_num [pdIndex], by decide, ?_⟩
  rw [initTable_apply]
  rw [List.filter_cons_of_pos (by decide), List.filter_nil]
  simp only [List.map_cons, List.map_nil, lineRecord, List.map_replicate, div_one]

theorem selectLoop_append (l : List (ℕ × WithTop ℝ)) (a : ℕ × WithTop ℝ) :
    selectLoop (l ++ [a]) = pdStep (selectLoop l) a := by
  simp [selectLoop, List.foldl_append]

/-- The race distance never exceeds the sentinel and is a lower bound of all
samples seen so far. -/
theorem selectLoop_dist_le (l : List (ℕ × WithTop ℝ)) :
    (selectLoop l).1 ≤ dblMax ∧
    ∀ q ∈ l, ((selectLoop l).1 : WithTop ℝ) ≤ q.2 := by
  induction l using List.reverseRecOn with
  | nil => exact ⟨le_refl _, by simp⟩
  | append_singleton l a ih =>
      rw [selectLoop_append, pdStep]
      by_cases h : ((selectLoop l).1 : WithTop ℝ) < a.2
      · rw [if_pos h]
        refine ⟨ih.1, fun q hq => ?_⟩
        rcases List.mem_append.mp hq with hq | hq
        · exact ih.2 q hq
        · rw [List.mem_singleton.mp hq]
          exact le_of_lt h
      · rw [if_neg h]
        push_neg at h
        obtain ⟨x, hx⟩ : ∃ r : ℝ, a.2 = (r : WithTop ℝ) := by
          lift a.2 to ℝ using
            (lt_of_le_of_lt h (WithTop.coe_lt_top _)).ne with x hx
          exact ⟨x, rfl⟩
        rw [hx] at h ⊢
        rw [WithTop.untop'_coe]
        have hxle : x ≤ (selectLoop l).1 := WithTop.coe_le_coe.mp h
        refine ⟨le_trans hxle ih.1, fun q hq => ?_⟩
        rcases List.mem_append.mp hq with hq | hq
        · exact le_trans (WithTop.coe_le_coe.mpr hxle) (ih.2 q hq)
        · rw [List.mem_singleton.mp hq, hx]

/-- When every sample strictly exceeds the sentinel distance the race never
overwrites its state: the distance stays at the sentinel and the channel
stays uninitialised. -/
theorem selectLoop_untouched (l : List (ℕ × WithTop ℝ))
    (h : ∀ q ∈ l, ((dblMax : ℝ) : WithTop ℝ) < q.2) :
    selectLoop l = (dblMax, none) := by
  induction l with
  | nil => rfl
  | cons a t ih =>
      have hstep : pdStep (dblMax, none) a = (dblMax, none) := by
        rw [pdStep, if_pos (h a (List.mem_cons_self a t))]
      rw [selectLoop, List.foldl_cons, hstep]
      exact ih fun q hq => h q (List.mem_cons_of_mem a hq)

/-- Characterisation of the race when at least one sample does not exceed the
sentinel: the final state records the sample and the channel code of the
entry whose sample is minimal among all entries — the last such entry when
the minimum is attained more than once. -/
theorem selectLoop_argmin (l : List (ℕ × WithTop ℝ))
    (h : ∃ p ∈ l, p.2 ≤ ((dblMax : ℝ) : WithTop ℝ)) :
    ∃ i, ∃ hi : i < l.length,
      ((selectLoop l).1 : WithTop ℝ) = (l[i]).2 ∧
      (selectLoop l).2 = some (l[i]).1 ∧
      (∀ q ∈ l, (l[i]).2 ≤ q.2) ∧
      (∀ q ∈ l.drop (i + 1), (l[i]).2 < q.2) := by
  induction l using List.reverseRecOn with
  | nil => simp at h
  | append_singleton l a ih =>
      rw [selectLoop_append, pdStep]
      by_cases hlt : ((selectLoop l).1 : WithTop ℝ) < a.2
      · rw [if_pos hlt]
        have hl : ∃ p ∈ l, p.2 ≤ ((dblMax : ℝ) : WithTop ℝ) := by
          by_contra hcon
          push_neg at hcon
          have hsel := selectLoop_untouched l hcon
          obtain ⟨p, hp, hple⟩ := h
          rcases List.mem_append.mp hp with hp | hp
          · exact absurd hple (not_le.mpr (hcon p hp))
          · rw [List.mem_singleton.mp hp] at hple
            rw [hsel] at hlt
            exact absurd hple (not_le.mpr hlt)
        obtain ⟨i, hi, h1, h2, h3, h4⟩ := ih hl
        have hi2 : i < (l ++ [a]).length := by
          simp only [List.length_append, List.length_cons, List.length_nil]
          omega
        have hget : (l ++ [a])[i] = l[i] := List.getElem_append_left _
        refine ⟨i, hi2, ?_, ?_, ?_, ?_⟩
        · rw [hget]
          exact h1
        · rw [hget]
          exact h2
        · rw [hget]
          intro q hq
          rcases List.mem_append.mp hq with hq | hq
          · exact h3 q hq
          · rw [List.mem_singleton.mp hq]
            calc ((l[i]).2 : WithTop ℝ)
                = ((selectLoop l).1 : WithTop ℝ) := h1.symm
              _ ≤ a.2 := le_of_lt hlt
        · rw [hget]
          rw [List.drop_append_of_le_length (by omega)]
          intro q hq
          rcases List.mem_append.mp hq with hq | hq
          · exact h4 q hq
          · rw [List.mem_singleton.mp hq, ← h1]
            exact hlt
      · rw [if_neg hlt]
        push_neg at hlt
        obtain ⟨x, hx⟩ := WithTop.ne_top_iff_exists.mp
          (lt_of_le_of_lt hlt (WithTop.coe_lt_top _)).ne
        have hi2 : l.length < (l ++ [a]).length := by simp
        have hget : (l ++ [a])[l.length] = a :=
          List.getElem_concat_length l a l.length rfl hi2
        refine ⟨l.length, hi2, ?_, ?_, ?_, ?_⟩
        · rw [hget, ← hx, WithTop.untop'_coe]
        · rw [hget, ← hx, WithTop.untop'_coe]
        · rw [hget]
          intro q hq
          rcases List.mem_append.mp hq with hq | hq
          · exact le_trans hlt ((selectLoop_dist_le l).2 q hq)
          · rw [List.mem_singleton.mp hq]
        · intro q hq
          rw [List.drop_eq_nil_of_le (by simp)] at hq
          simp at hq

/-- C6: `setNextInteraction` returns nothing exactly when the channel list of
the nuclide (Z, N = A - Z) is empty or when lg = log10(gamma * (1 + z)) lies
outside the open interval (6, 14); in particular the boundary values lg = 6
and lg = 14 themselves yield nothing, and any lg strictly inside with a
non-empty channel list yields a candidate interaction. -/
theorem setNextInteraction_none_iff (table : ℤ → List PDMode) (A Z : ℤ)
    (gamma z scale : ℝ) (interp : ℝ → List ℝ → ℝ) (us : ℕ → ℝ) :
    setNextInteraction table A Z gamma z scale interp us = none ↔
      table (pdIndex Z (A - Z)) = [] ∨
      Real.logb 10 (gamma * (1 + z)) ≤ 6 ∨
      14 ≤ Real.logb 10 (gamma * (1 + z)) := by
  simp only [setNextInteraction]
  split_ifs with h1 h2
  · simp [List.length_eq_zero.mp h1]
  · simp [h2]
  · push_neg at h2
    rw [List.length_eq_zero] at h1
    simp [h1, not_le.mpr h2.1, not_le.mpr h2.2]

/-- Unfolding of a `setNextInteraction` call whose guards pass. -/
theorem setNextInteraction_eq (table : ℤ → List PDMode) (A Z : ℤ)
    (gamma z scale : ℝ) (interp : ℝ → List ℝ → ℝ) (us : ℕ → ℝ)
    (h1 : table (pdIndex Z (A - Z)) ≠ [])
    (h2 : 6 < Real.logb 10 (gamma * (1 + z)))
    (h3 : Real.logb 10 (gamma * (1 + z)) < 14) :
    setNextInteraction table A Z gamma z scale interp us
      = some ((selectLoop (raceList table A Z gamma z interp us)).1 / scale * (1 + z),
          (selectLoop (raceList table A Z gamma z interp us)).2) := by
  simp only [setNextInteraction, raceList]
  rw [if_neg (by simpa [List.length_eq_zero] using h1),
    if_neg (by push_neg; exact ⟨h2, h3⟩)]

/-- C2 (amended): when the guards pass and at least one channel's sampled
free path does not exceed the sentinel DBL_MAX, the stored channel is the
channel code of a race entry whose sample is minimal among all channels and
strictly below every later channel's sample: a channel with the strictly
smallest sample wins, and on equal minimal samples the last-seen channel is
kept, because the loop skips a channel only when its sample strictly exceeds
the current best. -/
theorem setNextInteraction_winner (table : ℤ → List PDMode) (A Z : ℤ)
    (gamma z scale : ℝ) (interp : ℝ → List ℝ → ℝ) (us : ℕ → ℝ)
    (h1 : table (pdIndex Z (A - Z)) ≠ [])
    (h2 : 6 < Real.logb 10 (gamma * (1 + z)))
    (h3 : Real.logb 10 (gamma * (1 + z)) < 14)
    (h4 : ∃ p ∈ raceList table A Z gamma z interp us,
        p.2 ≤ ((dblMax : ℝ) : WithTop ℝ)) :
    ∃ i, ∃ hi : i < (raceList table A Z gamma z interp us).length, ∃ d0 : ℝ,
      setNextInteraction table A Z gamma z scale interp us
        = some (d0 / scale * (1 + z),
            some ((raceList table A Z gamma z interp us)[i]).1) ∧
      (d0 : WithTop ℝ) = ((raceList table A Z gamma z interp us)[i]).2 ∧
      (∀ q ∈ raceList table A Z gamma z interp us,
        ((raceList table A Z gamma z interp us)[i]).2 ≤ q.2) ∧
      (∀ q ∈ (raceList table A Z gamma z interp us).drop (i + 1),
        ((raceList table A Z gamma z interp us)[i]).2 < q.2) := by
  obtain ⟨i, hi, ha, hb, hc, hd⟩ := selectLoop_argmin _ h4
  refine ⟨i, hi, (selectLoop (raceList table A Z gamma z interp us)).1,
    ?_, ha, hc, hd⟩
  rw [setNextInteraction_eq table A Z gamma z scale interp us h1 h2 h3, hb]

/-- C7 (amended): when the guards pass and at least one channel's sampled
free path does not exceed the sentinel DBL_MAX, the recorded distance is the
minimum sampled free path divided by the photon field scaling value and
multiplied by (1 + z); the dependence of the recorded distance on redshift,
holding the race fixed, is exactly the factor (1 + z) / scale. -/
theorem setNextInteraction_distance_scaling (table : ℤ → List PDMode) (A Z : ℤ)
    (gamma z scale : ℝ) (interp : ℝ → List ℝ → ℝ) (us : ℕ → ℝ)
    (h1 : table (pdIndex Z (A - Z)) ≠ [])
    (h2 : 6 < Real.logb 10 (gamma * (1 + z)))
    (h3 : Real.logb 10 (gamma * (1 + z)) < 14)
    (h4 : ∃ p ∈ raceList table A Z gamma z interp us,
        p.2 ≤ ((dblMax : ℝ) : WithTop ℝ)) :
    ∃ d0 : ℝ, ∃ ch : Option ℕ,
      (∃ q ∈ raceList table A Z gamma z interp us, q.2 = (d0 : WithTop ℝ)) ∧
      (∀ q ∈ raceList table A Z gamma z interp us, (d0 : WithTop ℝ) ≤ q.2) ∧
      setNextInteraction table A Z gamma z scale interp us
        = some (d0 / scale * (1 + z), ch) := by
  obtain ⟨i, hi, ha, hb, hc, hd⟩ := selectLoop_argmin _ h4
  refine ⟨(selectLoop (raceList table A Z gamma z interp us)).1,
    (selectLoop (raceList table A Z gamma z interp us)).2,
    ⟨(raceList table A Z gamma z interp us)[i], List.getElem_mem _, ha.symm⟩,
    ?_, ?_⟩
  · intro q hq
    rw [ha]
    exact hc q hq
  · rw [setNextInteraction_eq table A Z gamma z scale interp us h1 h2 h3]

/-- The lg coordinate of the concrete calls below: a Lorentz factor 10^10 at
redshift 0 gives lg = 10, strictly inside (6, 14). -/
theorem logb_ten_pow_ten : Real.logb 10 ((10 : ℝ) ^ (10 : ℕ) * (1 + 0)) = 10 := by
  rw [add_zero, mul_one, Real.logb_pow, Real.logb_self_eq_one (by norm_num)]
  norm_num

theorem one_le_dblMax : (1 : ℝ) ≤ dblMax := by norm_num [dblMax]

theorem log_two_le_dblMax : Real.log 2 ≤ dblMax := by
  have h := Real.log_le_sub_one_of_pos (by norm_num : (0 : ℝ) < 2)
  have h1 := one_le_dblMax
  linarith

theorem sampleDist_half_one : sampleDist (1 / 2) 1 = ((Real.log 2 : ℝ) : WithTop ℝ) := by
  rw [sampleDist, if_neg one_ne_zero, div_one, one_div, Real.log_inv, neg_neg]

theorem sampleDist_zero_rate (u : ℝ) : sampleDist u 0 = ⊤ := by
  rw [sampleDist, if_pos rfl]

/-- C2 counterexample: two channels, codes 1 and 2, with identical unit
interpolated rates and identical draws u = 1/2 sample the same free path
log 2; the call stores channel 2, the last-seen of the two tied channels,
not the first-seen channel 1 that the claim predicts. -/
theorem setNextInteraction_tie_keeps_last :
    setNextInteraction
        (fun _ => [⟨1, List.replicate 200 1⟩, ⟨2, List.replicate 200 1⟩])
        4 2 ((10 : ℝ) ^ (10 : ℕ)) 0 1 (fun _ _ => 1) (fun _ => 1 / 2)
      = some (Real.log 2, some 2) ∧ (2 : ℕ) ≠ 1 := by
  refine ⟨?_, by decide⟩
  rw [setNextInteraction_eq _ _ _ _ _ _ _ _ (by simp)
    (by rw [logb_ten_pow_ten]; norm_num) (by rw [logb_ten_pow_ten]; norm_num)]
  have hrl : raceList
      (fun _ => [⟨1, List.replicate 200 1⟩, ⟨2, List.replicate 200 1⟩])
      4 2 ((10 : ℝ) ^ (10 : ℕ)) 0 (fun _ _ => 1) (fun _ => 1 / 2)
      = [(1, sampleDist (1 / 2) 1), (2, sampleDist (1 / 2) 1)] := rfl
  rw [hrl, sampleDist_half_one]
  have hstep1 : pdStep (dblMax, none) (1, ((Real.log 2 : ℝ) : WithTop ℝ))
      = (Real.log 2, some 1) := by
    rw [pdStep, if_neg (not_lt.mpr (WithTop.coe_le_coe.mpr log_two_le_dblMax))]
    simp
  have hstep2 : pdStep (Real.log 2, some 1) (2, ((Real.log 2 : ℝ) : WithTop ℝ))
      = (Real.log 2, some 2) := by
    rw [pdStep, if_neg (lt_irrefl _)]
    simp
  have hloop : selectLoop [(1, ((Real.log 2 : ℝ) : WithTop ℝ)),
      (2, ((Real.log 2 : ℝ) : WithTop ℝ))] = (Real.log 2, some 2) := by
    rw [selectLoop, List.foldl_cons, hstep1, List.foldl_cons, List.foldl_nil,
      hstep2]
  rw [hloop]
  norm_num

/-- C10: evaluation of the code at the failing input — a single channel,
code 10000, whose interpolated rate at lg = 10 is zero.  Its sampled free
path is +inf, which strictly exceeds the sentinel DBL_MAX, so the race never
stores a channel; the call nevertheless returns a candidate whose channel
field is still the uninitialised `none` and whose distance is the scaled
sentinel DBL_MAX, the sampled free path of no channel. -/
theorem setNextInteraction_zero_rate_bug :
    setNextInteraction (fun _ => [⟨10000, List.replicate 200 0⟩]) 4 2
        ((10 : ℝ) ^ (10 : ℕ)) 0 1 (fun _ _ => 0) (fun _ => 1 / 2)
      = some (dblMax, none) := by
  rw [setNextInteraction_eq _ _ _ _ _ _ _ _ (by simp)
    (by rw [logb_ten_pow_ten]; norm_num) (by rw [logb_ten_pow_ten]; norm_num)]
  have hrl : raceList (fun _ => [⟨10000, List.replicate 200 0⟩]) 4 2
      ((10 : ℝ) ^ (10 : ℕ)) 0 (fun _ _ => 0) (fun _ => 1 / 2)
      = [(10000, sampleDist (1 / 2) 0)] := rfl
  rw [hrl, sampleDist_zero_rate]
  have hloop : selectLoop [(10000, (⊤ : WithTop ℝ))] = (dblMax, none) := by
    rw [selectLoop, List.foldl_cons, List.foldl_nil, pdStep,
      if_pos (WithTop.coe_lt_top _)]
  rw [hloop]
  norm_num

/-- C7 counterexample: a call that returns a candidate (single channel, code
300, zero interpolated rate) in which every sampled free path is +inf while
the recorded distance is the finite scaled sentinel DBL_MAX — the recorded
distance is not the minimum sampled free path divided by the scaling value
and multiplied by (1 + z). -/
theorem setNextInteraction_distance_counterexample :
    setNextInteraction (fun _ => [⟨300, List.replicate 200 0⟩]) 9 4
        ((10 : ℝ) ^ (10 : ℕ)) 0 1 (fun _ _ => 0) (fun _ => 1 / 2)
      = some (dblMax, none) ∧
    (∀ q ∈ raceList (fun _ => [⟨300, List.replicate 200 0⟩]) 9 4
        ((10 : ℝ) ^ (10 : ℕ)) 0 (fun _ _ => 0) (fun _ => 1 / 2),
      q.2 = (⊤ : WithTop ℝ)) ∧
    ((dblMax : ℝ) : WithTop ℝ) ≠ ⊤ := by
  have hrl : raceList (fun _ => [⟨300, List.replicate 200 0⟩]) 9 4
      ((10 : ℝ) ^ (10 : ℕ)) 0 (fun _ _ => 0) (fun _ => 1 / 2)
      = [(300, sampleDist (1 / 2) 0)] := rfl
  refine ⟨?_, ?_, WithTop.coe_ne_top⟩
  · rw [setNextInteraction_eq _ _ _ _ _ _ _ _ (by simp)
      (by rw [logb_ten_pow_ten]; norm_num) (by rw [logb_ten_pow_ten]; norm_num)]
    rw [hrl, sampleDist_zero_rate]
    have hloop : selectLoop [(300, (⊤ : WithTop ℝ))] = (dblMax, none) := by
      rw [selectLoop, List.foldl_cons, List.foldl_nil, pdStep,
        if_pos (WithTop.coe_lt_top _)]
    rw [hloop]
    norm_num
  · intro q hq
    rw [hrl, sampleDist_zero_rate] at hq
    rw [List.mem_singleton.mp hq]

theorem sampleDist_half_two :
    sampleDist (1 / 2) 2 = ((Real.log 2 / 2 : ℝ) : WithTop ℝ) := by
  rw [sampleDist, if_neg two_ne_zero, one_div, Real.log_inv, neg_neg]

theorem log_two_div_two_le_dblMax : Real.log 2 / 2 ≤ dblMax := by
  have h := Real.log_le_sub_one_of_pos (by norm_num : (0 : ℝ) < 2)
  have h1 := one_le_dblMax
  have h2 : (0 : ℝ) ≤ Real.log 2 := Real.log_nonneg (by norm_num)
  linarith

/-- Witness for the amended C2 at a concrete call: a single channel, code 7,
with unit interpolated rate and draw 1/2. -/
theorem setNextInteraction_winner_witness :
    ((fun _ => [⟨7, List.replicate 200 1⟩]) (pdIndex 2 (4 - 2))
        ≠ ([] : List PDMode)) ∧
    (6 < Real.logb 10 ((10 : ℝ) ^ (10 : ℕ) * (1 + 0))) ∧
    (Real.logb 10 ((10 : ℝ) ^ (10 : ℕ) * (1 + 0)) < 14) ∧
    (∃ p ∈ raceList (fun _ => [⟨7, List.replicate 200 1⟩]) 4 2
        ((10 : ℝ) ^ (10 : ℕ)) 0 (fun _ _ => 1) (fun _ => 1 / 2),
      p.2 ≤ ((dblMax : ℝ) : WithTop ℝ)) ∧
    (∃ i, ∃ hi : i < (raceList (fun _ => [⟨7, List.replicate 200 1⟩]) 4 2
        ((10 : ℝ) ^ (10 : ℕ)) 0 (fun _ _ => 1) (fun _ => 1 / 2)).length,
      ∃ d0 : ℝ,
      setNextInteraction (fun _ => [⟨7, List.replicate 200 1⟩]) 4 2
          ((10 : ℝ) ^ (10 : ℕ)) 0 1 (fun _ _ => 1) (fun _ => 1 / 2)
        = some (d0 / 1 * (1 + 0),
            some (((raceList (fun _ => [⟨7, List.replicate 200 1⟩]) 4 2
              ((10 : ℝ) ^ (10 : ℕ)) 0 (fun _ _ => 1) (fun _ => 1 / 2))[i]).1)) ∧
      ((d0 : WithTop ℝ) = ((raceList (fun _ => [⟨7, List.replicate 200 1⟩]) 4 2
          ((10 : ℝ) ^ (10 : ℕ)) 0 (fun _ _ => 1) (fun _ => 1 / 2))[i]).2) ∧
      (∀ q ∈ raceList (fun _ => [⟨7, List.replicate 200 1⟩]) 4 2
          ((10 : ℝ) ^ (10 : ℕ)) 0 (fun _ _ => 1) (fun _ => 1 / 2),
        ((raceList (fun _ => [⟨7, List.replicate 200 1⟩]) 4 2
          ((10 : ℝ) ^ (10 : ℕ)) 0 (fun _ _ => 1) (fun _ => 1 / 2))[i]).2 ≤ q.2) ∧
      (∀ q ∈ (raceList (fun _ => [⟨7, List.replicate 200 1⟩]) 4 2
          ((10 : ℝ) ^ (10 : ℕ)) 0 (fun _ _ => 1) (fun _ => 1 / 2)).drop (i + 1),
        ((raceList (fun _ => [⟨7, List.replicate 200 1⟩]) 4 2
          ((10 : ℝ) ^ (10 : ℕ)) 0 (fun _ _ => 1) (fun _ => 1 / 2))[i]).2 < q.2)) := by
  have hlg6 : (6 : ℝ) < Real.logb 10 ((10 : ℝ) ^ (10 : ℕ) * (1 + 0)) := by
    rw [logb_ten_pow_ten]
    norm_num
  have hlg14 : Real.logb 10 ((10 : ℝ) ^ (10 : ℕ) * (1 + 0)) < 14 := by
    rw [logb_ten_pow_ten]
    norm_num
  have h1 : ((fun _ => [⟨7, List.replicate 200 1⟩]) : ℤ → List PDMode)
      (pdIndex 2 (4 - 2)) ≠ [] := by simp
  have h4 : ∃ p ∈ raceList (fun _ => [⟨7, List.replicate 200 1⟩]) 4 2
      ((10 : ℝ) ^ (10 : ℕ)) 0 (fun _ _ => 1) (fun _ => 1 / 2),
      p.2 ≤ ((dblMax : ℝ) : WithTop ℝ) := by
    refine ⟨(7, sampleDist (1 / 2) 1), ?_, ?_⟩
    · rw [show raceList (fun _ => [⟨7, List.replicate 200 1⟩]) 4 2
          ((10 : ℝ) ^ (10 : ℕ)) 0 (fun _ _ => 1) (fun _ => 1 / 2)
          = [(7, sampleDist (1 / 2) 1)] from rfl]
      exact List.mem_singleton_self _
    · rw [sampleDist_half_one]
      exact WithTop.coe_le_coe.mpr log_two_le_dblMax
  exact ⟨h1, hlg6, hlg14, h4,
    setNextInteraction_winner _ 4 2 _ 0 1 _ _ h1 hlg6 hlg14 h4⟩

/-- Witness for the amended C7 at a concrete call: a single channel, code 30,
with interpolated rate 2 and draw 1/2. -/
theorem setNextInteraction_distance_scaling_witness :
    ((fun _ => [⟨30, List.replicate 200 2⟩]) (pdIndex 6 (12 - 6))
        ≠ ([] : List PDMode)) ∧
    (6 < Real.logb 10 ((10 : ℝ) ^ (10 : ℕ) * (1 + 0))) ∧
    (Real.logb 10 ((10 : ℝ) ^ (10 : ℕ) * (1 + 0)) < 14) ∧
    (∃ p ∈ raceList (fun _ => [⟨30, List.replicate 200 2⟩]) 12 6
        ((10 : ℝ) ^ (10 : ℕ)) 0 (fun _ _ => 2) (fun _ => 1 / 2),
      p.2 ≤ ((dblMax : ℝ) : WithTop ℝ)) ∧
    (∃ d0 : ℝ, ∃ ch : Option ℕ,
      (∃ q ∈ raceList (fun _ => [⟨30, List.replicate 200 2⟩]) 12 6
          ((10 : ℝ) ^ (10 : ℕ)) 0 (fun _ _ => 2) (fun _ => 1 / 2),
        q.2 = (d0 : WithTop ℝ)) ∧
      (∀ q ∈ raceList (fun _ => [⟨30, List.replicate 200 2⟩]) 12 6
          ((10 : ℝ) ^ (10 : ℕ)) 0 (fun _ _ => 2) (fun _ => 1 / 2),
        (d0 : WithTop ℝ) ≤ q.2) ∧
      setNextInteraction (fun _ => [⟨30, List.replicate 200 2⟩]) 12 6
          ((10 : ℝ) ^ (10 : ℕ)) 0 1 (fun _ _ => 2) (fun _ => 1 / 2)
        = some (d0 / 1 * (1 + 0), ch)) := by
  have hlg6 : (6 : ℝ) < Real.logb 10 ((10 : ℝ) ^ (10 : ℕ) * (1 + 0)) := by
    rw [logb_ten_pow_ten]
    norm_num
  have hlg14 : Real.logb 10 ((10 : ℝ) ^ (10 : ℕ) * (1 + 0)) < 14 := by
    rw [logb_ten_pow_ten]
    norm_num
  have h1 : ((fun _ => [⟨30, List.replicate 200 2⟩]) : ℤ → List PDMode)
      (pdIndex 6 (12 - 6)) ≠ [] := by simp
  have h4 : ∃ p ∈ raceList (fun _ => [⟨30, List.replicate 200 2⟩]) 12 6
      ((10 : ℝ) ^ (10 : ℕ)) 0 (fun _ _ => 2) (fun _ => 1 / 2),
      p.2 ≤ ((dblMax : ℝ) : WithTop ℝ) := by
    refine ⟨(30, sampleDist (1 / 2) 2), ?_, ?_⟩
    · rw [show raceList (fun _ => [⟨30, List.replicate 200 2⟩]) 12 6
          ((10 : ℝ) ^ (10 : ℕ)) 0 (fun _ _ => 2) (fun _ => 1 / 2)
          = [(30, sampleDist (1 / 2) 2)] from rfl]
      exact List.mem_singleton_self _
    · rw [sampleDist_half_two]
      exact WithTop.coe_le_coe.mpr log_two_div_two_le_dblMax
  exact ⟨h1, hlg6, hlg14, h4,
    setNextInteraction_distance_scaling _ 12 6 _ 0 1 _ _ h1 hlg6 hlg14 h4⟩

theorem foldl_add_eq_sum (l : List PDMode) (f : PDMode → ℝ) (a : ℝ) :
    l.foldl (fun acc pd => acc + f pd) a = a + (l.map f).sum := by
  induction l generalizing a with
  | nil => simp
  | cons pd t ih =>
      rw [List.foldl_cons, ih, List.map_cons, List.sum_cons]
      ring

/-- C8: energyLossLength is a pure function of its inputs (no random draws)
and equals the maximum representable length exactly when the channel list of
the nuclide (Z, N = A - Z) is empty or lg = log10(E / restE) lies outside
the open interval (6, 14), and otherwise the reciprocal of the sum over the
channels of the interpolated rate weighted by the fraction massLoss / A of
nucleons stripped per interaction. -/
theorem energyLossLength_spec (table : ℤ → List PDMode) (A Z : ℤ)
    (E restE : ℝ) (interp : ℝ → List ℝ → ℝ) :
    energyLossLength table A Z E restE interp
      = if (table (pdIndex Z (A - Z))).length = 0
            ∨ Real.logb 10 (E / restE) ≤ 6 ∨ 14 ≤ Real.logb 10 (E / restE)
        then dblMax
        else 1 / ((table (pdIndex Z (A - Z))).map fun pd =>
            interp (Real.logb 10 (E / restE)) pd.rate
              * ((massLoss pd.channel : ℝ) / (A : ℝ))).sum := by
  by_cases h1 : (table (pdIndex Z (A - Z))).length = 0
  · simp only [energyLossLength, if_pos h1]
    rw [if_pos (Or.inl h1)]
  · by_cases h2 : Real.logb 10 (E / restE) ≤ 6 ∨ 14 ≤ Real.logb 10 (E / restE)
    · simp only [energyLossLength, if_neg h1, if_pos h2]
      rw [if_pos (Or.inr h2)]
    · simp only [energyLossLength, if_neg h1, if_neg h2]
      rw [if_neg (not_or.mpr ⟨h1, h2⟩), foldl_add_eq_sum, zero_add]
